import Mathlib

/-
Verification of the funpack binary serialization toolkit: a shallow embedding
of the cursor-based packer (`fpack`) and unpacker (`funpack`) from
`src/funpack/__init__.py`, together with proofs about the length-prefixed
array convention, the offset-jump convention, bounds checking and the
round-trip property.

Modelling conventions:
  * Bytes are naturals (each < 256 by construction of the encoders).
  * Python integers are `Int`; Python numeric arguments to the writer
    accessors (which may be fractional) are `Rat`, and the `int(...)`
    coercion the accessors apply is `pyInt` (truncation toward zero).
  * The host machine is little-endian, so the `Native`/`NativeNoAlign`
    byte-order modes decode like `Little`; for the repeated single-character
    format strings the source builds, `struct` inserts no alignment padding
    in any mode, so alignment is not otherwise observable.
  * A Python method that mutates `self` and may raise is modelled as a
    function `state -> (Except Err result) x state`: the returned state
    carries any mutations made before the exception was raised, exactly as
    a surviving Python object would.
  * `struct.error` raised for a value outside the range of its format code
    is `Err.rangeError`; `struct.error` for a read past the end of the
    source is `Err.outOfBounds`; a text-decoding failure is
    `Err.decodeError`.  Float fields are abstracted over their IEEE-754
    behavior: the byte codec of a float read is a `dec` function parameter,
    and on the write side both the `float(...)` coercion and the pack step
    are fallible function parameters (each can raise OverflowError in the
    source, so the model keeps them `Except`-valued).  Everything else is
    modelled concretely.
-/

/-- Endianness enumeration of the source: `Native`, `NativeNoAlign`,
`Little`, `Big`, `Network`, with the struct format characters as values. -/
inductive Endianness where
  | native
  | nativeNoAlign
  | little
  | big
  | network
deriving DecidableEq

/-- The struct format character of each mode (the `value` of the Python enum). -/
def Endianness.value : Endianness → String
  | .native => "@"
  | .nativeNoAlign => "="
  | .little => "<"
  | .big => ">"
  | .network => "!"

/-- Byte order selected by each mode.  `Native` and `NativeNoAlign` take the
host byte order, which is little-endian on the machines this code targets;
`Network` is big-endian, identical to `Big`. -/
def Endianness.isBig : Endianness → Bool
  | .native => false
  | .nativeNoAlign => false
  | .little => false
  | .big => true
  | .network => true

/-- All five enumeration members. -/
def Endianness.listAll : List Endianness :=
  [.native, .nativeNoAlign, .little, .big, .network]

/-- Case folding applied by the `Endian` setters (`v.lower()` in the source);
modelled for the ASCII names the setter compares against. -/
def pyLower (s : String) : String :=
  String.mk (s.data.map Char.toLower)

/-- Message of the `ValueError` the `Endian` setters raise for an
unrecognized string, naming the offending value and the accepted forms
(the source additionally quotes the value). -/
def endianErrMsg (v : String) : String :=
  "Unrecognized v value " ++ v ++
    " expected @, =, <, >, or !, or case-insensitive names native, nativenoalign, little, big, net, or network"

/-- The string branch of the `Endian` setter shared by `fpack` and `funpack`:
first the five single-character codes, then the case-insensitive names, else
a `ValueError` (modelled as the error string). -/
def parseEndianStr (v : String) : Except String Endianness :=
  if v = "@" then .ok .native
  else if v = "=" then .ok .nativeNoAlign
  else if v = "<" then .ok .little
  else if v = ">" then .ok .big
  else if v = "!" then .ok .network
  else if pyLower v = "native" then .ok .native
  else if pyLower v = "nativenoalign" then .ok .nativeNoAlign
  else if pyLower v = "little" then .ok .little
  else if pyLower v = "big" then .ok .big
  else if pyLower v = "net" then .ok .network
  else if pyLower v = "network" then .ok .network
  else .error (endianErrMsg v)

/-- The accepted written names for each mode (spec: a case-insensitive name
or the single-character code). -/
def endianNames : Endianness → List String
  | .native => ["native"]
  | .nativeNoAlign => ["nativenoalign"]
  | .little => ["little"]
  | .big => ["big"]
  | .network => ["net", "network"]

/-- Specification-side acceptance predicate: `v` denotes mode `m` when it is
the single-character code of `m` or one of the names of `m` up to case. -/
def endianAccepts (m : Endianness) (v : String) : Bool :=
  (v == m.value) || (endianNames m).contains (pyLower v)

/-- Field widths of the fixed-width accessors (8/16/32/64 bits). -/
inductive Width where
  | w8
  | w16
  | w32
  | w64
deriving DecidableEq

/-- Size of a field in bytes. -/
def Width.bytes : Width → Nat
  | .w8 => 1
  | .w16 => 2
  | .w32 => 4
  | .w64 => 8

/-- Size of a field in bits. -/
def Width.bits (w : Width) : Nat := 8 * w.bytes

/-- Little-endian byte decomposition: `w` bytes of `v`, least significant first. -/
def leBytes : Nat → Nat → List Nat
  | 0, _ => []
  | w + 1, v => v % 256 :: leBytes w (v / 256)

/-- Value of a little-endian byte list. -/
def leVal : List Nat → Nat
  | [] => 0
  | b :: bs => b + 256 * leVal bs

/-- Encode an unsigned value on `w` bytes in the given byte order. -/
def encodeU (bigOrder : Bool) (w : Nat) (v : Nat) : List Nat :=
  if bigOrder then (leBytes w v).reverse else leBytes w v

/-- Decode an unsigned value from a byte list in the given byte order. -/
def decodeU (bigOrder : Bool) (bs : List Nat) : Nat :=
  if bigOrder then leVal bs.reverse else leVal bs

/-- Bytes produced by `struct.pack` for one integer field of width `w`:
the twos-complement residue of `v`, in the selected byte order.  (For the
values `struct.pack` accepts this residue is `v` itself when unsigned.) -/
def encInt (bigOrder : Bool) (w : Width) (v : Int) : List Nat :=
  encodeU bigOrder w.bytes (v % ((2 : Int) ^ w.bits)).toNat

/-- Value decoded by `struct.unpack` from the `w.bytes` bytes of one integer
field: plain unsigned value, or twos complement when `sgn` is set. -/
def decInt (bigOrder : Bool) (sgn : Bool) (w : Width) (bs : List Nat) : Int :=
  let u := decodeU bigOrder bs
  if sgn then
    if u < 2 ^ (w.bits - 1) then (u : Int) else (u : Int) - (2 : Int) ^ w.bits
  else (u : Int)

/-- Range check `struct.pack` performs on an integer argument before
producing any output (raising `struct.error` outside it). -/
def intInRange (sgn : Bool) (w : Width) (v : Int) : Bool :=
  if sgn then
    decide (-((2 : Int) ^ (w.bits - 1)) ≤ v) && decide (v < (2 : Int) ^ (w.bits - 1))
  else
    decide ((0 : Int) ≤ v) && decide (v < (2 : Int) ^ w.bits)

/-- The `int(...)` coercion the integer writer accessors apply to every
argument: rational (Python numeric) truncation toward zero. -/
def pyInt (q : ℚ) : Int := q.num.tdiv q.den

/-- Error kinds of the operations (section 7 of the specification). -/
inductive Err where
  | outOfBounds
  | rangeError
  | decodeError
deriving DecidableEq

/-- Left-to-right evaluation of a fallible coercion over an argument list
(the list comprehension in the accessor bodies): the first raise
propagates and no later coercion is evaluated. -/
def listMapExcept {α β : Type} (g : α → Except Err β) : List α → Except Err (List β)
  | [] => .ok []
  | a :: rest =>
    match g a with
    | .error e => .error e
    | .ok b =>
      match listMapExcept g rest with
      | .error e => .error e
      | .ok bs => .ok (b :: bs)

/-- Decidable equality of results, for evaluating concrete runs. -/
def exceptDecEq {ε α : Type} [DecidableEq ε] [DecidableEq α] :
    (a b : Except ε α) → Decidable (a = b)
  | .error x, .error y =>
    if h : x = y then .isTrue (by rw [h]) else .isFalse (fun hh => h (Except.error.inj hh))
  | .error _, .ok _ => .isFalse (fun hh => Except.noConfusion hh)
  | .ok _, .error _ => .isFalse (fun hh => Except.noConfusion hh)
  | .ok x, .ok y =>
    if h : x = y then .isTrue (by rw [h]) else .isFalse (fun hh => h (Except.ok.inj hh))

instance {ε α : Type} [DecidableEq ε] [DecidableEq α] : DecidableEq (Except ε α) :=
  exceptDecEq

/-- Sequencing of one fallible, state-mutating step with the rest of a
method body: an exception raised by the step propagates, carrying whatever
state the step left behind. -/
def bindStep {σ α β : Type} (p : Except Err α × σ) (g : α → σ → Except Err β × σ) :
    Except Err β × σ :=
  match p with
  | (.error e, s1) => (.error e, s1)
  | (.ok v, s1) => g v s1

/-- State of the fast packer `fpack`: the list of byte chunks appended so
far (`self._buffer`) and the current endianness. -/
structure Fpack where
  buffer : List (List Nat)
  endian : Endianness
deriving DecidableEq

/-- The `Data` property: concatenation of every appended chunk, in order. -/
def Fpack.Data (f : Fpack) : List Nat := f.buffer.flatten

/-- One `Pack` call on a repeated integer format character: `struct.pack`
validates every value against the format range and only then produces the
encoded chunk, which is appended to the buffer and returned.  On a range
failure nothing is appended. -/
def Fpack.PackInts (f : Fpack) (sgn : Bool) (w : Width) (vs : List Int) :
    Except Err (List Nat) × Fpack :=
  if vs.all (intInRange sgn w) then
    (.ok ((vs.map (encInt f.endian.isBig w)).flatten),
      Fpack.mk (f.buffer ++ [(vs.map (encInt f.endian.isBig w)).flatten]) f.endian)
  else (.error .rangeError, f)

/-- Common body of the integer writer accessors `u8 ... s64`: coerce every
argument with `int(...)` and pack them on the accessor width. -/
def Fpack.intAcc (f : Fpack) (sgn : Bool) (w : Width) (vals : List ℚ) :
    Except Err (List Nat) × Fpack :=
  f.PackInts sgn w (vals.map pyInt)

/-- Writer accessor `u8`. -/
def Fpack.u8 (f : Fpack) (vals : List ℚ) := f.intAcc false .w8 vals

/-- Writer accessor `u16`. -/
def Fpack.u16 (f : Fpack) (vals : List ℚ) := f.intAcc false .w16 vals

/-- Writer accessor `u32`. -/
def Fpack.u32 (f : Fpack) (vals : List ℚ) := f.intAcc false .w32 vals

/-- Writer accessor `u64`. -/
def Fpack.u64 (f : Fpack) (vals : List ℚ) := f.intAcc false .w64 vals

/-- Writer accessor `s8`. -/
def Fpack.s8 (f : Fpack) (vals : List ℚ) := f.intAcc true .w8 vals

/-- Writer accessor `s16`. -/
def Fpack.s16 (f : Fpack) (vals : List ℚ) := f.intAcc true .w16 vals

/-- Writer accessor `s32`. -/
def Fpack.s32 (f : Fpack) (vals : List ℚ) := f.intAcc true .w32 vals

/-- Writer accessor `s64`. -/
def Fpack.s64 (f : Fpack) (vals : List ℚ) := f.intAcc true .w64 vals

/-- Writer `pad`: packs `times` zero bytes (format `x`), always succeeds,
returns nothing (Python default for `times` is 1). -/
def Fpack.pad (f : Fpack) (times : Nat) : Except Err Unit × Fpack :=
  (.ok (), Fpack.mk (f.buffer ++ [List.replicate times 0]) f.endian)

/-- Writer `bytes`: each byte-string argument is packed on an exact-length
`s` format (the identity on its bytes) and appended as its own chunk; the
list of chunks is returned. -/
def Fpack.bytes (f : Fpack) (vals : List (List Nat)) :
    Except Err (List (List Nat)) × Fpack :=
  (.ok vals, Fpack.mk (f.buffer ++ vals) f.endian)

/-- Common body of the float writer accessors `f32`/`f64`.  The
`float(...)` coercion `coe` is applied to every argument first (the list
comprehension in the source; it raises OverflowError for numeric values
beyond the double range), then a single `Pack` call encodes the coerced
values with the IEEE-754 codec `enc` of the accessor (`struct.pack`, which
itself raises for doubles outside the target float range) and appends the
chunk only on success.  The value-level behavior of `coe` and `enc`,
including exactly which values overflow, is IEEE-754 and is left abstract:
both are fallible parameters, so no error path of the source is dropped. -/
def Fpack.floatAcc (f : Fpack) (coe : ℚ → Except Err ℚ)
    (enc : List ℚ → Except Err (List Nat)) (vals : List ℚ) :
    Except Err (List Nat) × Fpack :=
  match listMapExcept coe vals with
  | .error e => (.error e, f)
  | .ok fs =>
    match enc fs with
    | .error e => (.error e, f)
    | .ok chunk => (.ok chunk, Fpack.mk (f.buffer ++ [chunk]) f.endian)

/-- The `_lendat` root of the length-prefixed write family
`uLlen_uDdat`/`uLlen_sDdat` (`lw` = length-field width, `sgn`/`dw` =
signedness and width of the data), exactly in source order: write the
element count with the unsigned accessor of width `lw`, then the explicit
count range check, then write the coerced elements; returns the two encoded
chunks. -/
def Fpack.lendat (f : Fpack) (lw : Width) (sgn : Bool) (dw : Width)
    (vals : List ℚ) : Except Err (List Nat × List Nat) × Fpack :=
  bindStep (f.intAcc false lw [(vals.length : ℚ)]) (fun r1 f1 =>
    if 2 ^ lw.bits ≤ vals.length then (.error .rangeError, f1)
    else bindStep (f1.intAcc sgn dw vals) (fun r2 f2 => (.ok (r1, r2), f2)))

/-- State of the fast unpacker `funpack`: the byte source, the current
offset (`self.Offset`; a Python int, possibly negative or past the end
since the setter does not validate), and the endianness. -/
structure Funpack where
  src : List Nat
  offset : Int
  endian : Endianness
deriving DecidableEq

/-- Offset adjustment `struct.unpack_from` performs: a negative offset
counts from the end of the buffer. -/
def adjustOffset (n : Nat) (off : Int) : Int :=
  if off < 0 then off + n else off

/-- Core of `Unpack`: `struct.unpack_from` fails when a negative offset
stays negative after adding the buffer length, or when fewer than `sz`
bytes are available at the adjusted offset, and returns the span without
mutation otherwise; on success `self.Offset` is incremented by the format
size `sz` (from its original, unadjusted value). -/
def Funpack.readBytes (f : Funpack) (sz : Nat) : Except Err (List Nat) × Funpack :=
  if f.offset < 0 ∧ f.offset + (f.src.length : Int) < 0 then (.error .outOfBounds, f)
  else if (sz : Int) > (f.src.length : Int) - adjustOffset f.src.length f.offset then
    (.error .outOfBounds, f)
  else
    (.ok ((f.src.drop (adjustOffset f.src.length f.offset).toNat).take sz),
      Funpack.mk f.src (f.offset + sz) f.endian)

/-- Split a byte list into `times` chunks of `k` bytes each. -/
def chunksOf (k : Nat) : Nat → List Nat → List (List Nat)
  | 0, _ => []
  | t + 1, bs => bs.take k :: chunksOf k t (bs.drop k)

/-- One `Unpack` call on a format character repeated `times` times, for a
field of `wb` bytes decoded by `dec`: a single bounds-checked read of
`wb * times` bytes followed by fieldwise decoding of the tuple. -/
def Funpack.unpackRepeat {α : Type} (f : Funpack) (wb : Nat) (dec : List Nat → α)
    (times : Nat) : Except Err (List α) × Funpack :=
  bindStep (f.readBytes (wb * times))
    (fun bs f1 => (.ok ((chunksOf wb times bs).map dec), f1))

/-- The `times == 1` path of `_short`: `Unpack(char)[0]`, the first (only)
component of the one-element tuple. -/
def Funpack.scalarRead {α : Type} [Inhabited α] (f : Funpack) (wb : Nat)
    (dec : List Nat → α) : Except Err α × Funpack :=
  bindStep (f.unpackRepeat wb dec 1) (fun vs f1 => (.ok vs.headI, f1))

/-- Result of `_short`: a bare scalar when `times == 1`, otherwise the
tuple of decoded values. -/
inductive ShortRet (α : Type) where
  | scalar (v : α)
  | tuple (vs : List α)
deriving DecidableEq

/-- The `_short` shortcut every reader accessor goes through: `times == 1`
returns `Unpack(char)[0]` bare, any other `times` (including 0) returns the
tuple `Unpack(char * times)`. -/
def Funpack.short {α : Type} [Inhabited α] (f : Funpack) (wb : Nat)
    (dec : List Nat → α) (times : Nat) : Except Err (ShortRet α) × Funpack :=
  if times = 1 then
    bindStep (f.scalarRead wb dec) (fun v f1 => (.ok (.scalar v), f1))
  else
    bindStep (f.unpackRepeat wb dec times) (fun vs f1 => (.ok (.tuple vs), f1))

/-- Integer instance of `_short`: the body shared by the reader accessors
`u8 ... s64` at width `w` and signedness `sgn`. -/
def Funpack.shortInt (f : Funpack) (sgn : Bool) (w : Width) (times : Nat) :
    Except Err (ShortRet Int) × Funpack :=
  f.short w.bytes (decInt f.endian.isBig sgn w) times

/-- A single unsigned scalar read (`self.uN()` with the default `times=1`),
as used by the length-prefixed reads and the jumps. -/
def Funpack.scalarU (f : Funpack) (w : Width) : Except Err Int × Funpack :=
  f.scalarRead w.bytes (decInt f.endian.isBig false w)

/-- Reader accessor `u8` (Python default for `times` is 1). -/
def Funpack.u8 (f : Funpack) (times : Nat) := f.shortInt false .w8 times

/-- Reader accessor `u16`. -/
def Funpack.u16 (f : Funpack) (times : Nat) := f.shortInt false .w16 times

/-- Reader accessor `u32`. -/
def Funpack.u32 (f : Funpack) (times : Nat) := f.shortInt false .w32 times

/-- Reader accessor `u64`. -/
def Funpack.u64 (f : Funpack) (times : Nat) := f.shortInt false .w64 times

/-- Reader accessor `s8`. -/
def Funpack.s8 (f : Funpack) (times : Nat) := f.shortInt true .w8 times

/-- Reader accessor `s16`. -/
def Funpack.s16 (f : Funpack) (times : Nat) := f.shortInt true .w16 times

/-- Reader accessor `s32`. -/
def Funpack.s32 (f : Funpack) (times : Nat) := f.shortInt true .w32 times

/-- Reader accessor `s64`. -/
def Funpack.s64 (f : Funpack) (times : Nat) := f.shortInt true .w64 times

/-- Reader `pad`: `Unpack` of `times` pad bytes; consumes `times` bytes
under the usual bounds check and returns nothing (Python default is 1). -/
def Funpack.pad (f : Funpack) (times : Nat) : Except Err Unit × Funpack :=
  bindStep (f.readBytes times) (fun _ f1 => (.ok (), f1))

/-- Reader `bytes`: one bounds-checked read of exactly `ln` bytes returned
as a single byte string. -/
def Funpack.bytes (f : Funpack) (ln : Nat) : Except Err (List Nat) × Funpack :=
  f.readBytes ln

/-- ASCII text decoding: every byte must be below 128, else a
`UnicodeDecodeError` (`Err.decodeError`). -/
def asciiDecode (bs : List Nat) : Except Err (List Nat) :=
  if bs.all (fun b => b < 128) then .ok bs else .error .decodeError

/-- Reader `string` with the ASCII codec: read `ln` bytes (consuming them
even if decoding then fails) and decode them. -/
def Funpack.stringAscii (f : Funpack) (ln : Nat) : Except Err (List Nat) × Funpack :=
  bindStep (f.bytes ln) (fun bs f1 =>
    match asciiDecode bs with
    | .error e => (.error e, f1)
    | .ok s => (.ok s, f1))

/-- The length-prefixed read family `uLlen_uDdat`/`uLlen_sDdat`: read the
unsigned count `ln` of width `lw`, then read `ln` data values of width `dw`
and signedness `sgn` through the accessor (so a count of exactly 1 yields a
bare scalar, any other count the tuple); the count is not returned. -/
def Funpack.lendat (f : Funpack) (lw : Width) (sgn : Bool) (dw : Width) :
    Except Err (ShortRet Int) × Funpack :=
  bindStep (f.scalarU lw) (fun ln f1 => f1.shortInt sgn dw ln.toNat)

/-- The jump family `uNjump`: read the unsigned count `ln` of width `lw`,
then add `multiplier * ln + tweak` to the offset, with no check of any
kind on the resulting offset, and return `ln` (Python defaults:
`multiplier=1`, `tweak=0`). -/
def Funpack.jump (f : Funpack) (lw : Width) (multiplier : Int) (tweak : Int) :
    Except Err Int × Funpack :=
  bindStep (f.scalarU lw) (fun ln f1 =>
    (.ok ln, Funpack.mk f1.src (f1.offset + multiplier * ln + tweak) f1.endian))

/-- Reader `u8jump`. -/
def Funpack.u8jump (f : Funpack) (multiplier : Int) (tweak : Int) :=
  f.jump .w8 multiplier tweak

/-- Reader `u16jump`. -/
def Funpack.u16jump (f : Funpack) (multiplier : Int) (tweak : Int) :=
  f.jump .w16 multiplier tweak

/-- Reader `u32jump`. -/
def Funpack.u32jump (f : Funpack) (multiplier : Int) (tweak : Int) :=
  f.jump .w32 multiplier tweak

/-- Reader `u64jump`. -/
def Funpack.u64jump (f : Funpack) (multiplier : Int) (tweak : Int) :=
  f.jump .w64 multiplier tweak

/-- Sequential single reads: `times` successive `count=1` reads of the same
field, collecting the values in order (the reference point of the
scalar/sequence duality property). -/
def Funpack.seqReads {α : Type} [Inhabited α] (wb : Nat) (dec : List Nat → α) :
    Nat → Funpack → Except Err (List α) × Funpack
  | 0, f => (.ok [], f)
  | t + 1, f =>
    bindStep (f.scalarRead wb dec) (fun v f1 =>
      bindStep (Funpack.seqReads wb dec t f1) (fun vs f2 => (.ok (v :: vs), f2)))

/-- One reader operation, for statements quantifying over the whole reader
interface (`readF` is a float accessor with its IEEE decoding abstracted to
the raw field bytes). -/
inductive ReaderOp where
  | read (sgn : Bool) (w : Width) (times : Nat)
  | readF (w : Width) (times : Nat)
  | pad (times : Nat)
  | bytes (ln : Nat)
  | stringAscii (ln : Nat)
  | lendat (lw : Width) (sgn : Bool) (dw : Width)
  | jump (lw : Width) (multiplier : Int) (tweak : Int)
deriving DecidableEq

/-- Whether an operation is one of the four jumps. -/
def ReaderOp.isJump : ReaderOp → Bool
  | .jump _ _ _ => true
  | _ => false

/-- Return value of a reader operation. -/
inductive RVal where
  | ints (r : ShortRet Int)
  | raw (r : ShortRet (List Nat))
  | unitV
  | bs (l : List Nat)
  | intV (n : Int)
deriving DecidableEq

/-- Dispatch of one reader operation to its implementation. -/
def runReaderOp : ReaderOp → Funpack → Except Err RVal × Funpack
  | .read sgn w times, f =>
    bindStep (f.shortInt sgn w times) (fun r f1 => (.ok (.ints r), f1))
  | .readF w times, f =>
    bindStep (f.short w.bytes (fun bs => bs) times) (fun r f1 => (.ok (.raw r), f1))
  | .pad times, f =>
    bindStep (f.pad times) (fun _ f1 => (.ok .unitV, f1))
  | .bytes ln, f =>
    bindStep (f.bytes ln) (fun l f1 => (.ok (.bs l), f1))
  | .stringAscii ln, f =>
    bindStep (f.stringAscii ln) (fun l f1 => (.ok (.bs l), f1))
  | .lendat lw sgn dw, f =>
    bindStep (f.lendat lw sgn dw) (fun r f1 => (.ok (.ints r), f1))
  | .jump lw m t, f =>
    bindStep (f.jump lw m t) (fun n f1 => (.ok (.intV n), f1))

/-- Elimination for a failing composite step: either the first step failed
with that error and state, or it succeeded and the continuation failed. -/
theorem bindStep_error_elim {σ α β : Type} {p : Except Err α × σ}
    {g : α → σ → Except Err β × σ} {e : Err} {s1 : σ}
    (h : bindStep p g = (.error e, s1)) :
    p = (.error e, s1) ∨ ∃ v sv, p = (.ok v, sv) ∧ g v sv = (.error e, s1) := by
  rcases p with ⟨r, s⟩
  cases r with
  | error e2 =>
    have hh : ((Except.error e2 : Except Err β), s) = (.error e, s1) := h
    have he : e2 = e := Except.error.inj (Prod.ext_iff.mp hh).1
    have hs : s = s1 := (Prod.ext_iff.mp hh).2
    exact Or.inl (by rw [he, hs])
  | ok v => exact Or.inr ⟨v, s, rfl, h⟩

/-- Elimination for a successful composite step: the first step succeeded
and the continuation produced the final result. -/
theorem bindStep_ok_elim {σ α β : Type} {p : Except Err α × σ}
    {g : α → σ → Except Err β × σ} {b : β} {s1 : σ}
    (h : bindStep p g = (.ok b, s1)) :
    ∃ v sv, p = (.ok v, sv) ∧ g v sv = (.ok b, s1) := by
  rcases p with ⟨r, s⟩
  cases r with
  | error e2 =>
    have hh : ((Except.error e2 : Except Err β), s) = (.ok b, s1) := h
    exact absurd (Prod.ext_iff.mp hh).1 (fun hc => Except.noConfusion hc)
  | ok v => exact ⟨v, s, rfl, h⟩

/-- Evaluation of the adjustment at a nonnegative offset. -/
theorem adjustOffset_of_nonneg (n : Nat) (off : Int) (h : 0 ≤ off) :
    adjustOffset n off = off := by
  unfold adjustOffset
  rw [if_neg (not_lt.mpr h)]

/-- A failing `Unpack` leaves the state exactly as it was. -/
theorem readBytes_error_state {f : Funpack} {sz : Nat} {e : Err} {f1 : Funpack}
    (h : f.readBytes sz = (.error e, f1)) : f1 = f := by
  unfold Funpack.readBytes at h
  split_ifs at h
  · exact (Prod.ext_iff.mp h).2.symm
  · exact (Prod.ext_iff.mp h).2.symm
  · exact Except.noConfusion (Prod.ext_iff.mp h).1

/-- A successful `Unpack` advances the offset by exactly the format size. -/
theorem readBytes_ok_state {f : Funpack} {sz : Nat} {bs : List Nat} {f1 : Funpack}
    (h : f.readBytes sz = (.ok bs, f1)) :
    f1 = Funpack.mk f.src (f.offset + sz) f.endian := by
  unfold Funpack.readBytes at h
  split_ifs at h
  · exact Except.noConfusion (Prod.ext_iff.mp h).1
  · exact Except.noConfusion (Prod.ext_iff.mp h).1
  · exact (Prod.ext_iff.mp h).2.symm

/-- A successful `Unpack` starting inside the source ends inside the source. -/
theorem readBytes_ok_le {f : Funpack} {sz : Nat} {bs : List Nat} {f1 : Funpack}
    (h0 : 0 ≤ f.offset) (h : f.readBytes sz = (.ok bs, f1)) :
    f.offset + sz ≤ (f.src.length : Int) := by
  unfold Funpack.readBytes at h
  rw [adjustOffset_of_nonneg _ _ h0] at h
  split_ifs at h with h1 h2
  · exact Except.noConfusion (Prod.ext_iff.mp h).1
  · exact Except.noConfusion (Prod.ext_iff.mp h).1
  · omega

/-- Value of a bounds-respecting `Unpack` at a nonnegative offset. -/
theorem readBytes_ok_of_nonneg {f : Funpack} {sz : Nat} (h0 : 0 ≤ f.offset)
    (hle : f.offset + sz ≤ (f.src.length : Int)) :
    f.readBytes sz = (.ok ((f.src.drop f.offset.toNat).take sz),
      Funpack.mk f.src (f.offset + sz) f.endian) := by
  have h1 : ¬ (f.offset < 0 ∧ f.offset + (f.src.length : Int) < 0) := by omega
  unfold Funpack.readBytes
  rw [adjustOffset_of_nonneg _ _ h0, if_neg h1, if_neg (by omega)]

/-- An `Unpack` whose span passes the end of the source fails without
mutation. -/
theorem readBytes_error_of_nonneg {f : Funpack} {sz : Nat} (h0 : 0 ≤ f.offset)
    (hgt : (f.src.length : Int) < f.offset + ((sz : Nat) : Int)) :
    f.readBytes sz = (.error .outOfBounds, f) := by
  unfold Funpack.readBytes
  rw [adjustOffset_of_nonneg _ _ h0, if_neg (by omega), if_pos (by omega)]

/-- A failing `unpackRepeat` leaves the state exactly as it was. -/
theorem unpackRepeat_error_state {α : Type} {f : Funpack} {wb : Nat}
    {dec : List Nat → α} {times : Nat} {e : Err} {f1 : Funpack}
    (h : f.unpackRepeat wb dec times = (.error e, f1)) : f1 = f := by
  unfold Funpack.unpackRepeat at h
  rcases bindStep_error_elim h with h1 | ⟨v, sv, _, hg⟩
  · exact readBytes_error_state h1
  · exact Except.noConfusion (Prod.ext_iff.mp hg).1

/-- Decomposition of a successful `unpackRepeat`. -/
theorem unpackRepeat_ok_elim {α : Type} {f : Funpack} {wb : Nat}
    {dec : List Nat → α} {times : Nat} {vs : List α} {f1 : Funpack}
    (h : f.unpackRepeat wb dec times = (.ok vs, f1)) :
    f.readBytes (wb * times) =
      (.ok ((f.src.drop (adjustOffset f.src.length f.offset).toNat).take (wb * times)), f1) ∧
    vs = (chunksOf wb times
      ((f.src.drop (adjustOffset f.src.length f.offset).toNat).take (wb * times))).map dec := by
  unfold Funpack.unpackRepeat at h
  obtain ⟨bs, sv, hrb, hg⟩ := bindStep_ok_elim h
  have hvs : vs = (chunksOf wb times bs).map dec := (Except.ok.inj (Prod.ext_iff.mp hg).1).symm
  have hsv : sv = f1 := (Prod.ext_iff.mp hg).2
  rw [hsv] at hrb
  have hbs : bs = (f.src.drop (adjustOffset f.src.length f.offset).toNat).take (wb * times) := by
    unfold Funpack.readBytes at hrb
    split_ifs at hrb
    · exact Except.noConfusion (Prod.ext_iff.mp hrb).1
    · exact Except.noConfusion (Prod.ext_iff.mp hrb).1
    · exact (Except.ok.inj (Prod.ext_iff.mp hrb).1).symm
  constructor
  · rw [← hbs]
    exact hrb
  · rw [hvs, hbs]

/-- A successful `unpackRepeat` advances the offset by the exact span. -/
theorem unpackRepeat_ok_state {α : Type} {f : Funpack} {wb : Nat}
    {dec : List Nat → α} {times : Nat} {vs : List α} {f1 : Funpack}
    (h : f.unpackRepeat wb dec times = (.ok vs, f1)) :
    f1 = Funpack.mk f.src (f.offset + (wb * times : Nat)) f.endian := by
  unfold Funpack.unpackRepeat at h
  obtain ⟨bs, sv, hrb, hg⟩ := bindStep_ok_elim h
  have hsv : sv = f1 := (Prod.ext_iff.mp hg).2
  rw [hsv] at hrb
  exact readBytes_ok_state hrb

/-- A failing `_short` scalar path leaves the state exactly as it was. -/
theorem scalarRead_error_state {α : Type} [Inhabited α] {f : Funpack} {wb : Nat}
    {dec : List Nat → α} {e : Err} {f1 : Funpack}
    (h : f.scalarRead wb dec = (.error e, f1)) : f1 = f := by
  unfold Funpack.scalarRead at h
  rcases bindStep_error_elim h with h1 | ⟨v, sv, _, hg⟩
  · exact unpackRepeat_error_state h1
  · exact Except.noConfusion (Prod.ext_iff.mp hg).1

/-- A successful `_short` scalar path advances the offset by the field size. -/
theorem scalarRead_ok_state {α : Type} [Inhabited α] {f : Funpack} {wb : Nat}
    {dec : List Nat → α} {v : α} {f1 : Funpack}
    (h : f.scalarRead wb dec = (.ok v, f1)) :
    f1 = Funpack.mk f.src (f.offset + (wb : Nat)) f.endian := by
  unfold Funpack.scalarRead at h
  obtain ⟨vs, sv, hur, hg⟩ := bindStep_ok_elim h
  have hsv : sv = f1 := (Prod.ext_iff.mp hg).2
  rw [hsv] at hur
  have := unpackRepeat_ok_state hur
  rwa [Nat.mul_one] at this

/-- A failing `_short` leaves the state exactly as it was, whatever `times`. -/
theorem short_error_state {α : Type} [Inhabited α] {f : Funpack} {wb : Nat}
    {dec : List Nat → α} {times : Nat} {e : Err} {f1 : Funpack}
    (h : f.short wb dec times = (.error e, f1)) : f1 = f := by
  unfold Funpack.short at h
  split_ifs at h
  · rcases bindStep_error_elim h with h1 | ⟨v, sv, _, hg⟩
    · exact scalarRead_error_state h1
    · exact Except.noConfusion (Prod.ext_iff.mp hg).1
  · rcases bindStep_error_elim h with h1 | ⟨v, sv, _, hg⟩
    · exact unpackRepeat_error_state h1
    · exact Except.noConfusion (Prod.ext_iff.mp hg).1

/-- C1 (amended): the jump operations perform no bounds check of their own.
When reading the length field itself fails (OutOfBounds), the jump fails the
same way with the state unchanged; whenever the length read succeeds with
value `n`, the jump always succeeds, returns `n`, and sets the offset to
`multiplier * n + tweak` past the position after the length field — even
when that offset exceeds the source length or is negative. -/
theorem claim1_jump_unchecked (lw : Width) (m t : Int) (f : Funpack) :
    (∀ e f1, f.scalarU lw = (.error e, f1) → f.jump lw m t = (.error e, f1)) ∧
    (∀ n f1, f.scalarU lw = (.ok n, f1) →
      f.jump lw m t = (.ok n, Funpack.mk f1.src (f1.offset + m * n + t) f1.endian)) := by
  constructor
  · intro e f1 h
    unfold Funpack.jump
    rw [h]
    rfl
  · intro n f1 h
    unfold Funpack.jump
    rw [h]
    rfl

/-- C1 witness: a concrete jump whose length read succeeds. -/
theorem claim1_witness :
    (Funpack.mk [200] 0 .big).jump .w8 1 0 =
      (.ok 200, Funpack.mk [200] ((1 : Int) + 1 * 200 + 0) .big) :=
  (claim1_jump_unchecked .w8 1 0 (Funpack.mk [200] 0 .big)).2 200
    (Funpack.mk [200] 1 .big) (by decide)

/-- C1 counterexample: on the one-byte source `[200]`, `u8jump` with
multiplier 1 and tweak 0 succeeds (returning 200) and leaves the offset at
201, far past the source length 1 — the claimed OutOfBounds failure does
not happen. -/
theorem claim1_counterexample :
    (Funpack.mk [200] 0 .big).u8jump 1 0 = (.ok 200, Funpack.mk [200] 201 .big) ∧
    (Funpack.mk [200] 0 .big).src.length = 1 := by
  decide

/-- C7 (confirmed): a jump whose on-wire length value reads as `n` returns
`n` itself (not the skip distance) and, having consumed the
`lw.bytes`-byte length field, advances the offset by exactly
`multiplier * n + tweak` further bytes. -/
theorem claim7_jump_arithmetic (lw : Width) (m t : Int) (f : Funpack) (n : Int)
    (f1 : Funpack) (h : f.scalarU lw = (.ok n, f1)) :
    f.jump lw m t = (.ok n, Funpack.mk f1.src (f1.offset + m * n + t) f1.endian) ∧
    f1.offset = f.offset + (lw.bytes : Nat) := by
  refine ⟨?_, ?_⟩
  · unfold Funpack.jump
    rw [h]
    rfl
  · have := scalarRead_ok_state h
    rw [this]

/-- C7 witness: an 8-bit jump over a concrete source with multiplier 2 and
tweak 1. -/
theorem claim7_witness :
    (Funpack.mk [3, 9, 9, 9, 9, 9, 9, 9] 0 .big).jump .w8 2 1 =
      (.ok 3, Funpack.mk [3, 9, 9, 9, 9, 9, 9, 9] ((1 : Int) + 2 * 3 + 1) .big) ∧
    (1 : Int) = (0 : Int) + ((Width.w8.bytes : Nat) : Int) :=
  claim7_jump_arithmetic .w8 2 1 (Funpack.mk [3, 9, 9, 9, 9, 9, 9, 9] 0 .big) 3
    (Funpack.mk [3, 9, 9, 9, 9, 9, 9, 9] 1 .big) (by decide)

/-- C3 (confirmed): a fixed-width read through `_short` whose requested
byte span extends past the end of the source fails with OutOfBounds and
leaves the reader exactly as it was; more generally, whenever such a read
fails for any reason the state — in particular the offset — is exactly what
it was before the call: the read is atomic, for every field size, decoder,
count and state. -/
theorem claim3_read_atomic {α : Type} [Inhabited α] (wb : Nat) (dec : List Nat → α)
    (times : Nat) (f : Funpack) :
    (0 ≤ f.offset → (f.src.length : Int) < f.offset + ((wb * times : Nat) : Int) →
      f.short wb dec times = (.error .outOfBounds, f)) ∧
    (∀ e, (f.short wb dec times).1 = .error e → (f.short wb dec times).2 = f) := by
  constructor
  · intro h0 hgt
    unfold Funpack.short
    split_ifs with ht
    · unfold Funpack.scalarRead Funpack.unpackRepeat
      rw [readBytes_error_of_nonneg h0 (by rw [ht] at hgt; exact hgt)]
      rfl
    · unfold Funpack.unpackRepeat
      rw [readBytes_error_of_nonneg h0 hgt]
      rfl
  · intro e h
    rcases hs : f.short wb dec times with ⟨r, f1⟩
    rw [hs] at h
    have hr : r = .error e := h
    show f1 = f
    rw [hr] at hs
    exact short_error_state hs

/-- C3 witness: a one-byte read on an empty source fails and leaves the
reader untouched. -/
theorem claim3_witness :
    (Funpack.mk [] 0 .big).short 1 (decInt true false .w8) 1 =
      (.error .outOfBounds, Funpack.mk [] 0 .big) ∧
    ((Funpack.mk [] 0 .big).short 1 (decInt true false .w8) 1).2 = Funpack.mk [] 0 .big :=
  ⟨(claim3_read_atomic 1 (decInt true false .w8) 1 (Funpack.mk [] 0 .big)).1
      (by decide) (by decide),
   (claim3_read_atomic 1 (decInt true false .w8) 1 (Funpack.mk [] 0 .big)).2
      .outOfBounds (by decide)⟩

/-- A successful `_short` scalar path stays inside the source. -/
theorem scalarRead_ok_le {α : Type} [Inhabited α] {f : Funpack} {wb : Nat}
    {dec : List Nat → α} {v : α} {f1 : Funpack} (h0 : 0 ≤ f.offset)
    (h : f.scalarRead wb dec = (.ok v, f1)) :
    f.offset + (wb : Nat) ≤ (f.src.length : Int) := by
  unfold Funpack.scalarRead at h
  obtain ⟨vs, sv, hur, _⟩ := bindStep_ok_elim h
  unfold Funpack.unpackRepeat at hur
  obtain ⟨bs, sv2, hrb, _⟩ := bindStep_ok_elim hur
  have := readBytes_ok_le h0 hrb
  rwa [Nat.mul_one] at this

/-- A successful `_short` advances the offset by the exact span read. -/
theorem short_ok_state {α : Type} [Inhabited α] {f : Funpack} {wb : Nat}
    {dec : List Nat → α} {times : Nat} {r : ShortRet α} {f1 : Funpack}
    (h : f.short wb dec times = (.ok r, f1)) :
    f1 = Funpack.mk f.src (f.offset + (wb * times : Nat)) f.endian := by
  unfold Funpack.short at h
  split_ifs at h with ht
  · obtain ⟨v, sv, hp, hg⟩ := bindStep_ok_elim h
    have hsv : sv = f1 := (Prod.ext_iff.mp hg).2
    rw [hsv] at hp
    have := scalarRead_ok_state hp
    rw [this, ht, Nat.mul_one]
  · obtain ⟨vs, sv, hp, hg⟩ := bindStep_ok_elim h
    have hsv : sv = f1 := (Prod.ext_iff.mp hg).2
    rw [hsv] at hp
    exact unpackRepeat_ok_state hp

/-- A successful `_short` starting inside the source stays inside it. -/
theorem short_ok_le {α : Type} [Inhabited α] {f : Funpack} {wb : Nat}
    {dec : List Nat → α} {times : Nat} {r : ShortRet α} {f1 : Funpack}
    (h0 : 0 ≤ f.offset) (h : f.short wb dec times = (.ok r, f1)) :
    f.offset + (wb * times : Nat) ≤ (f.src.length : Int) := by
  unfold Funpack.short at h
  split_ifs at h with ht
  · obtain ⟨v, sv, hp, _⟩ := bindStep_ok_elim h
    have := scalarRead_ok_le h0 hp
    rw [ht, Nat.mul_one]
    exact this
  · obtain ⟨vs, sv, hp, _⟩ := bindStep_ok_elim h
    unfold Funpack.unpackRepeat at hp
    obtain ⟨bs, sv2, hrb, _⟩ := bindStep_ok_elim hp
    exact readBytes_ok_le h0 hrb

/-- C2 (amended): every reader operation other than the jumps preserves the
cursor invariant: from a state whose offset lies within `[0, source length]`,
a successful scalar read, pad, bytes, string or length-prefixed read leaves
the offset within `[0, source length]`.  (The jumps do not: see the
counterexample, where a successful jump exits the range.) -/
theorem claim2_offset_invariant (op : ReaderOp) (f : Funpack)
    (hop : op.isJump = false) (h0 : 0 ≤ f.offset)
    (h1 : f.offset ≤ (f.src.length : Int)) (v : RVal) (f' : Funpack)
    (h : runReaderOp op f = (.ok v, f')) :
    0 ≤ f'.offset ∧ f'.offset ≤ (f'.src.length : Int) := by
  cases op with
  | read sgn w times =>
    obtain ⟨r, sv, hp, hg⟩ := bindStep_ok_elim h
    have hsv : sv = f' := (Prod.ext_iff.mp hg).2
    rw [hsv] at hp
    have hst := short_ok_state hp
    have hle := short_ok_le h0 hp
    rw [hst]
    refine ⟨?_, ?_⟩
    · show (0 : Int) ≤ f.offset + ((w.bytes * times : Nat) : Int)
      have : (0 : Int) ≤ ((w.bytes * times : Nat) : Int) := Int.natCast_nonneg _
      omega
    · show f.offset + ((w.bytes * times : Nat) : Int) ≤ (f.src.length : Int)
      exact hle
  | readF w times =>
    obtain ⟨r, sv, hp, hg⟩ := bindStep_ok_elim h
    have hsv : sv = f' := (Prod.ext_iff.mp hg).2
    rw [hsv] at hp
    have hst := short_ok_state hp
    have hle := short_ok_le h0 hp
    rw [hst]
    refine ⟨?_, ?_⟩
    · show (0 : Int) ≤ f.offset + ((w.bytes * times : Nat) : Int)
      have : (0 : Int) ≤ ((w.bytes * times : Nat) : Int) := Int.natCast_nonneg _
      omega
    · show f.offset + ((w.bytes * times : Nat) : Int) ≤ (f.src.length : Int)
      exact hle
  | pad times =>
    obtain ⟨u, sv, hp, hg⟩ := bindStep_ok_elim h
    have hsv : sv = f' := (Prod.ext_iff.mp hg).2
    rw [hsv] at hp
    unfold Funpack.pad at hp
    obtain ⟨bs, sv2, hrb, hg2⟩ := bindStep_ok_elim hp
    have hsv2 : sv2 = f' := (Prod.ext_iff.mp hg2).2
    rw [hsv2] at hrb
    have hst := readBytes_ok_state hrb
    have hle := readBytes_ok_le h0 hrb
    rw [hst]
    refine ⟨?_, ?_⟩
    · show (0 : Int) ≤ f.offset + ((times : Nat) : Int)
      have : (0 : Int) ≤ ((times : Nat) : Int) := Int.natCast_nonneg _
      omega
    · show f.offset + ((times : Nat) : Int) ≤ (f.src.length : Int)
      exact hle
  | bytes ln =>
    obtain ⟨l, sv, hp, hg⟩ := bindStep_ok_elim h
    have hsv : sv = f' := (Prod.ext_iff.mp hg).2
    rw [hsv] at hp
    have hrb : f.readBytes ln = (.ok l, f') := hp
    have hst := readBytes_ok_state hrb
    have hle := readBytes_ok_le h0 hrb
    rw [hst]
    refine ⟨?_, ?_⟩
    · show (0 : Int) ≤ f.offset + ((ln : Nat) : Int)
      have : (0 : Int) ≤ ((ln : Nat) : Int) := Int.natCast_nonneg _
      omega
    · show f.offset + ((ln : Nat) : Int) ≤ (f.src.length : Int)
      exact hle
  | stringAscii ln =>
    obtain ⟨l, sv, hp, hg⟩ := bindStep_ok_elim h
    have hsv : sv = f' := (Prod.ext_iff.mp hg).2
    rw [hsv] at hp
    unfold Funpack.stringAscii at hp
    obtain ⟨bs, sv2, hby, hg2⟩ := bindStep_ok_elim hp
    have hsv2 : sv2 = f' := by
      cases hdec : asciiDecode bs with
      | error e =>
        rw [hdec] at hg2
        exact Except.noConfusion (Prod.ext_iff.mp hg2).1
      | ok s =>
        rw [hdec] at hg2
        exact (Prod.ext_iff.mp hg2).2
    rw [hsv2] at hby
    have hrb : f.readBytes ln = (.ok bs, f') := hby
    have hst := readBytes_ok_state hrb
    have hle := readBytes_ok_le h0 hrb
    rw [hst]
    refine ⟨?_, ?_⟩
    · show (0 : Int) ≤ f.offset + ((ln : Nat) : Int)
      have : (0 : Int) ≤ ((ln : Nat) : Int) := Int.natCast_nonneg _
      omega
    · show f.offset + ((ln : Nat) : Int) ≤ (f.src.length : Int)
      exact hle
  | lendat lw sgn dw =>
    obtain ⟨n, sv, hp, hg⟩ := bindStep_ok_elim h
    have hsv : sv = f' := (Prod.ext_iff.mp hg).2
    rw [hsv] at hp
    unfold Funpack.lendat at hp
    obtain ⟨ln, fa, hu, hs⟩ := bindStep_ok_elim hp
    have hastate := scalarRead_ok_state hu
    have hale := scalarRead_ok_le h0 hu
    have ha0 : 0 ≤ fa.offset := by
      rw [hastate]
      show (0 : Int) ≤ f.offset + ((lw.bytes : Nat) : Int)
      have : (0 : Int) ≤ ((lw.bytes : Nat) : Int) := Int.natCast_nonneg _
      omega
    have hst := short_ok_state hs
    have hle := short_ok_le ha0 hs
    rw [hst, hastate]
    refine ⟨?_, ?_⟩
    · show (0 : Int) ≤ f.offset + ((lw.bytes : Nat) : Int) + ((dw.bytes * ln.toNat : Nat) : Int)
      have h2 : (0 : Int) ≤ ((lw.bytes : Nat) : Int) := Int.natCast_nonneg _
      have h3 : (0 : Int) ≤ ((dw.bytes * ln.toNat : Nat) : Int) := Int.natCast_nonneg _
      omega
    · show f.offset + ((lw.bytes : Nat) : Int) + ((dw.bytes * ln.toNat : Nat) : Int) ≤
        (f.src.length : Int)
      rw [hastate] at hle
      exact hle
  | jump lw m t => exact Bool.noConfusion hop

/-- C2 witness: a one-byte scalar read on a one-byte source lands exactly at
the end of the range. -/
theorem claim2_witness :
    0 ≤ (runReaderOp (.read false .w8 1) (Funpack.mk [7] 0 .big)).2.offset ∧
    (runReaderOp (.read false .w8 1) (Funpack.mk [7] 0 .big)).2.offset ≤
      ((runReaderOp (.read false .w8 1) (Funpack.mk [7] 0 .big)).2.src.length : Int) := by
  have := claim2_offset_invariant (.read false .w8 1) (Funpack.mk [7] 0 .big)
    (by decide) (by decide) (by decide) (.ints (.scalar 7)) (Funpack.mk [7] 1 .big)
    (by decide)
  have hrun : runReaderOp (.read false .w8 1) (Funpack.mk [7] 0 .big) =
      (.ok (.ints (.scalar 7)), Funpack.mk [7] 1 .big) := by decide
  rw [hrun]
  exact this

/-- C2 counterexample: the jump is a reader operation, it succeeds on the
source `[200]` from the in-range offset 0, and leaves the offset at 201,
outside `[0, 1]` — the claimed invariant fails for successful jumps. -/
theorem claim2_counterexample :
    runReaderOp (.jump .w8 1 0) (Funpack.mk [200] 0 .big) =
      (.ok (.intV 200), Funpack.mk [200] 201 .big) ∧
    ¬ ((201 : Int) ≤ ((Funpack.mk [200] 201 .big).src.length : Int)) := by
  decide

/-- The `int(...)` coercion is the identity on integer values. -/
theorem pyInt_intCast (v : Int) : pyInt ((v : Int) : ℚ) = v := by
  unfold pyInt
  rw [Rat.num_intCast, Rat.den_intCast]
  exact Int.tdiv_one _

/-- The `int(...)` coercion is the identity on natural values. -/
theorem pyInt_natCast (n : Nat) : pyInt ((n : Nat) : ℚ) = (n : Int) := by
  unfold pyInt
  rw [Rat.num_natCast, Rat.den_natCast]
  exact Int.tdiv_one _

/-- The unsigned range check on a natural count is the count bound. -/
theorem intInRange_unsigned_nat (w : Width) (n : Nat) :
    intInRange false w ((n : Nat) : Int) = true ↔ n < 2 ^ w.bits := by
  show (decide ((0 : Int) ≤ (n : Int)) && decide ((n : Int) < (2 : Int) ^ w.bits)) = true ↔
    n < 2 ^ w.bits
  simp only [Bool.and_eq_true, decide_eq_true_eq]
  constructor
  · rintro ⟨_, h2⟩
    exact_mod_cast h2
  · intro h
    exact ⟨Int.natCast_nonneg n, by exact_mod_cast h⟩

/-- A `Pack` of integers with every value in range appends exactly the
encoded chunk and returns it. -/
theorem intAcc_ok_of_all (f : Fpack) (sgn : Bool) (w : Width) (vals : List ℚ)
    (hall : (vals.map pyInt).all (intInRange sgn w) = true) :
    f.intAcc sgn w vals =
      (.ok (((vals.map pyInt).map (encInt f.endian.isBig w)).flatten),
       Fpack.mk (f.buffer ++ [((vals.map pyInt).map (encInt f.endian.isBig w)).flatten])
         f.endian) := by
  unfold Fpack.intAcc Fpack.PackInts
  rw [if_pos hall]

/-- A `Pack` of integers with some value out of range raises the range
error and appends nothing. -/
theorem intAcc_error_of_not_all (f : Fpack) (sgn : Bool) (w : Width) (vals : List ℚ)
    (hall : (vals.map pyInt).all (intInRange sgn w) = false) :
    f.intAcc sgn w vals = (.error .rangeError, f) := by
  unfold Fpack.intAcc Fpack.PackInts
  rw [hall]
  rfl

/-- A failing integer `Pack` leaves the writer exactly as it was. -/
theorem intAcc_error_state (f : Fpack) (sgn : Bool) (w : Width) (vals : List ℚ)
    (e : Err) (h : (f.intAcc sgn w vals).1 = .error e) : (f.intAcc sgn w vals).2 = f := by
  unfold Fpack.intAcc Fpack.PackInts at h ⊢
  split_ifs at h ⊢ with hc
  all_goals first
  | rfl
  | simp at h

/-- The singleton count argument of `_lendat`, coerced. -/
theorem lendat_count_map (n : Nat) :
    ([(n : ℚ)].map pyInt) = [((n : Nat) : Int)] := by
  simp only [List.map_cons, List.map_nil, pyInt_natCast]

/-- Evaluation of the length-field write of `_lendat` when the count fits. -/
theorem lendat_lenfield_ok (f : Fpack) (lw : Width) (n : Nat) (hlt : n < 2 ^ lw.bits) :
    f.intAcc false lw [(n : ℚ)] =
      (.ok (encInt f.endian.isBig lw ((n : Nat) : Int)),
       Fpack.mk (f.buffer ++ [encInt f.endian.isBig lw ((n : Nat) : Int)]) f.endian) := by
  have hall : (([(n : ℚ)].map pyInt).all (intInRange false lw)) = true := by
    rw [lendat_count_map]
    simp only [List.all_cons, List.all_nil, Bool.and_true]
    exact (intInRange_unsigned_nat lw n).mpr hlt
  rw [intAcc_ok_of_all f false lw [(n : ℚ)] hall, lendat_count_map]
  simp only [List.map_cons, List.map_nil, List.flatten_cons, List.flatten_nil,
    List.append_nil]

/-- C4 (amended): each single `Pack` call is atomic — a scalar integer write
that fails validates before appending, so the buffer is unchanged — but the
length-prefixed array write is not atomic as a whole: when the count fits
its length field and some element value then fails the element-width range
check, the already-appended length field stays in the buffer, so the failed
operation leaves exactly the encoded count appended. -/
theorem claim4_write_partiality :
    (∀ (sgn : Bool) (w : Width) (vals : List ℚ) (f : Fpack) (e : Err),
       (f.intAcc sgn w vals).1 = .error e → (f.intAcc sgn w vals).2 = f) ∧
    (∀ (lw : Width) (sgn : Bool) (dw : Width) (vals : List ℚ) (f : Fpack),
       vals.length < 2 ^ lw.bits →
       (vals.map pyInt).all (intInRange sgn dw) = false →
       (f.lendat lw sgn dw vals).1 = .error .rangeError ∧
       (f.lendat lw sgn dw vals).2.Data =
         f.Data ++ encInt f.endian.isBig lw ((vals.length : Nat) : Int)) := by
  constructor
  · exact fun sgn w vals f e h => intAcc_error_state f sgn w vals e h
  · intro lw sgn dw vals f hlt hall
    unfold Fpack.lendat
    rw [lendat_lenfield_ok f lw vals.length hlt]
    simp only [bindStep]
    rw [if_neg (not_le.mpr hlt)]
    rw [intAcc_error_of_not_all
      (Fpack.mk (f.buffer ++ [encInt f.endian.isBig lw ((vals.length : Nat) : Int)]) f.endian)
      sgn dw vals hall]
    constructor
    · rfl
    · show (Fpack.mk (f.buffer ++ [encInt f.endian.isBig lw ((vals.length : Nat) : Int)])
        f.endian).Data = _
      unfold Fpack.Data
      simp only [List.flatten_append, List.flatten_cons, List.flatten_nil, List.append_nil]

/-- C4 witness: writing the single element 300 with an 8-bit length field
and 8-bit elements fails on the element, with the length byte 1 appended. -/
theorem claim4_witness :
    ((Fpack.mk [] .little).intAcc false .w8 [(300 : ℚ)]).2 = Fpack.mk [] .little ∧
    (((Fpack.mk [] .little).lendat .w8 false .w8 [(300 : ℚ)]).1 = .error .rangeError ∧
     ((Fpack.mk [] .little).lendat .w8 false .w8 [(300 : ℚ)]).2.Data =
       (Fpack.mk [] .little).Data ++
         encInt (Fpack.mk [] .little).endian.isBig .w8
           ((([(300 : ℚ)].length : Nat)) : Int)) :=
  ⟨claim4_write_partiality.1 false .w8 [(300 : ℚ)] (Fpack.mk [] .little) .rangeError
      (by decide),
   claim4_write_partiality.2 .w8 false .w8 [(300 : ℚ)] (Fpack.mk [] .little)
      (by decide) (by decide)⟩

/-- C4 counterexample: `u8len_u8dat(300)` on a fresh big-endian writer fails
(300 does not fit an unsigned byte) yet the output buffer afterwards holds
the length byte `0x01` — not the empty buffer it held before the call, so
the failed operation did have an effect. -/
theorem claim4_counterexample :
    ((Fpack.mk [] .big).lendat .w8 false .w8 [(300 : ℚ)]).1 = .error .rangeError ∧
    ((Fpack.mk [] .big).lendat .w8 false .w8 [(300 : ℚ)]).2.Data = [1] ∧
    (Fpack.mk [] .big).Data = [] := by
  decide

/-- C5 (confirmed): a length-prefixed array write of `n` values with an
`lw.bits`-bit length field fails with the range error whenever
`n ≥ 2 ^ lw.bits` (the count cannot be packed into the length field), and
for `n < 2 ^ lw.bits` (with every element representable) it writes `n` as
an `lw.bits`-bit unsigned integer followed by the `n` encoded elements,
returning both chunks. -/
theorem claim5_lendat_write (lw : Width) (sgn : Bool) (dw : Width) (vals : List ℚ)
    (f : Fpack) :
    (2 ^ lw.bits ≤ vals.length → f.lendat lw sgn dw vals = (.error .rangeError, f)) ∧
    (vals.length < 2 ^ lw.bits → (vals.map pyInt).all (intInRange sgn dw) = true →
      f.lendat lw sgn dw vals =
        (.ok (encInt f.endian.isBig lw ((vals.length : Nat) : Int),
              ((vals.map pyInt).map (encInt f.endian.isBig dw)).flatten),
         Fpack.mk (f.buffer ++ [encInt f.endian.isBig lw ((vals.length : Nat) : Int)]
            ++ [((vals.map pyInt).map (encInt f.endian.isBig dw)).flatten]) f.endian) ∧
      (f.lendat lw sgn dw vals).2.Data =
        f.Data ++ encInt f.endian.isBig lw ((vals.length : Nat) : Int)
          ++ ((vals.map pyInt).map (encInt f.endian.isBig dw)).flatten) := by
  constructor
  · intro hge
    have hall : (([(vals.length : ℚ)].map pyInt).all (intInRange false lw)) = false := by
      rw [lendat_count_map]
      simp only [List.all_cons, List.all_nil, Bool.and_true]
      rw [← Bool.not_eq_true]
      intro hc
      exact absurd ((intInRange_unsigned_nat lw vals.length).mp hc) (not_lt.mpr hge)
    unfold Fpack.lendat
    rw [intAcc_error_of_not_all f false lw [(vals.length : ℚ)] hall]
    rfl
  · intro hlt hall
    have h1 := lendat_lenfield_ok f lw vals.length hlt
    have h2 := intAcc_ok_of_all
      (Fpack.mk (f.buffer ++ [encInt f.endian.isBig lw ((vals.length : Nat) : Int)]) f.endian)
      sgn dw vals hall
    unfold Fpack.lendat
    rw [h1]
    simp only [bindStep]
    rw [if_neg (not_le.mpr hlt)]
    rw [h2]
    simp only [bindStep]
    refine ⟨by first | rfl | trivial, ?_⟩
    unfold Fpack.Data
    simp only [List.flatten_append, List.flatten_cons, List.flatten_nil, List.append_nil,
      List.append_assoc]

set_option maxRecDepth 4000 in
/-- C5 witness: the boundary cases for an 8-bit length field — 256 elements
fail with the range error, two elements are written as count byte plus the
two encoded elements. -/
theorem claim5_witness :
    (Fpack.mk [] .big).lendat .w8 false .w8 (List.replicate 256 (0 : ℚ)) =
      (.error .rangeError, Fpack.mk [] .big) ∧
    (Fpack.mk [] .big).lendat .w8 false .w16 [(1 : ℚ), (2 : ℚ)] =
      (.ok (encInt true .w8 ((2 : Nat) : Int),
            (([(1 : ℚ), (2 : ℚ)].map pyInt).map (encInt true .w16)).flatten),
       Fpack.mk ([] ++ [encInt true .w8 ((2 : Nat) : Int)]
          ++ [(([(1 : ℚ), (2 : ℚ)].map pyInt).map (encInt true .w16)).flatten]) .big) ∧
    ((Fpack.mk [] .big).lendat .w8 false .w16 [(1 : ℚ), (2 : ℚ)]).2.Data =
      [2, 0, 1, 0, 2] :=
  ⟨(claim5_lendat_write .w8 false .w8 (List.replicate 256 (0 : ℚ)) (Fpack.mk [] .big)).1
      (by decide),
   ((claim5_lendat_write .w8 false .w16 [(1 : ℚ), (2 : ℚ)] (Fpack.mk [] .big)).2
      (by decide) (by decide)).1,
   by decide⟩

/-- C10 (confirmed): every integer writer accessor coerces each argument
with `int(...)` before encoding, so a fractional argument is truncated
toward zero (the floor for nonnegative arguments, the ceiling for negative
ones) rather than rejected; 5.9 written as an unsigned byte appends 0x05.
The float accessors likewise coerce each argument with `float(...)` before
encoding: the coercions run first and a raise there fails the call with
nothing appended (the pack is never consulted), a raise inside the pack of
the coerced values also fails with nothing appended, and on success the
chunk encoded from the coerced values — not the raw arguments — is
appended and returned. -/
theorem claim10_coercion :
    (∀ (sgn : Bool) (w : Width) (q : ℚ) (f : Fpack),
        intInRange sgn w (pyInt q) = true →
        f.intAcc sgn w [q] =
          (.ok (encInt f.endian.isBig w (pyInt q)),
           Fpack.mk (f.buffer ++ [encInt f.endian.isBig w (pyInt q)]) f.endian)) ∧
    (∀ q : ℚ, 0 ≤ q → pyInt q = ⌊q⌋) ∧
    (∀ q : ℚ, q < 0 → pyInt q = ⌈q⌉) ∧
    ((Fpack.mk [] .big).u8 [mkRat 59 10]).2.Data = [5] ∧
    pyInt (-(mkRat 59 10)) = -5 ∧
    (∀ (coe : ℚ → Except Err ℚ) (enc : List ℚ → Except Err (List Nat))
        (vals : List ℚ) (f : Fpack) (e : Err),
        listMapExcept coe vals = .error e →
        ∀ enc2, f.floatAcc coe enc vals = (.error e, f) ∧
          f.floatAcc coe enc2 vals = (.error e, f)) ∧
    (∀ (coe : ℚ → Except Err ℚ) (enc : List ℚ → Except Err (List Nat))
        (vals fs : List ℚ) (f : Fpack) (e : Err),
        listMapExcept coe vals = .ok fs → enc fs = .error e →
        f.floatAcc coe enc vals = (.error e, f)) ∧
    (∀ (coe : ℚ → Except Err ℚ) (enc : List ℚ → Except Err (List Nat))
        (vals fs : List ℚ) (chunk : List Nat) (f : Fpack),
        listMapExcept coe vals = .ok fs → enc fs = .ok chunk →
        f.floatAcc coe enc vals =
          (.ok chunk, Fpack.mk (f.buffer ++ [chunk]) f.endian)) := by
  refine ⟨?_, ?_, ?_, by decide, by decide, ?_, ?_, ?_⟩
  · intro sgn w q f h
    have hall : (([q].map pyInt).all (intInRange sgn w)) = true := by
      simp only [List.map_cons, List.map_nil, List.all_cons, List.all_nil, Bool.and_true]
      exact h
    rw [intAcc_ok_of_all f sgn w [q] hall]
    simp only [List.map_cons, List.map_nil, List.flatten_cons, List.flatten_nil,
      List.append_nil]
  · intro q h
    rw [Rat.floor_def]
    exact Int.tdiv_eq_ediv (Rat.num_nonneg.mpr h) (Int.natCast_nonneg _)
  · intro q h
    have hn : q.num < 0 := by
      by_contra hc
      push_neg at hc
      exact absurd (Rat.num_nonneg.mp hc) (not_le.mpr h)
    have hceil : (⌈q⌉ : Int) = -⌊-q⌋ := by
      rw [Int.floor_neg, neg_neg]
    rw [hceil, Rat.floor_def, Rat.neg_num]
    rw [Rat.den_neg_eq_den]
    have he : (-q.num) / (q.den : Int) = (-q.num).tdiv q.den :=
      (Int.tdiv_eq_ediv (by omega) (Int.natCast_nonneg _)).symm
    rw [he, Int.neg_tdiv, neg_neg]
    rfl
  · intro coe enc vals f e h enc2
    constructor
    · unfold Fpack.floatAcc
      rw [h]
    · unfold Fpack.floatAcc
      rw [h]
  · intro coe enc vals fs f e h1 h2
    unfold Fpack.floatAcc
    rw [h1]
    show (match enc fs with
      | .error e => ((.error e : Except Err (List Nat)), f)
      | .ok chunk => (.ok chunk, Fpack.mk (f.buffer ++ [chunk]) f.endian)) = (.error e, f)
    rw [h2]
  · intro coe enc vals fs chunk f h1 h2
    unfold Fpack.floatAcc
    rw [h1]
    show (match enc fs with
      | .error e => ((.error e : Except Err (List Nat)), f)
      | .ok chunk => (.ok chunk, Fpack.mk (f.buffer ++ [chunk]) f.endian)) =
      (.ok chunk, Fpack.mk (f.buffer ++ [chunk]) f.endian)
    rw [h2]

/-- C10 witness: the coercion facts applied on a fresh big-endian writer —
the concrete fractional value 5.9 for the integer accessor, and a concrete
fallible coercion and pack for the float accessor (one call whose coercion
raises with nothing appended, one call that succeeds and appends the chunk
built from the coerced values). -/
theorem claim10_witness :
    (Fpack.mk [] .big).intAcc false .w8 [mkRat 59 10] =
      (.ok (encInt true .w8 (pyInt (mkRat 59 10))),
       Fpack.mk ([] ++ [encInt true .w8 (pyInt (mkRat 59 10))]) .big) ∧
    pyInt (mkRat 59 10) = ⌊mkRat 59 10⌋ ∧
    pyInt (-(mkRat 59 10)) = ⌈-(mkRat 59 10)⌉ ∧
    ((Fpack.mk [] .big).floatAcc
        (fun q => if q.num ≤ 1000 then .ok q else .error .rangeError)
        (fun fs => .ok (List.replicate (4 * fs.length) 0)) [(2000 : ℚ)] =
      (.error .rangeError, Fpack.mk [] .big) ∧
     (Fpack.mk [] .big).floatAcc
        (fun q => if q.num ≤ 1000 then .ok q else .error .rangeError)
        (fun _ => .error .rangeError) [(2000 : ℚ)] =
      (.error .rangeError, Fpack.mk [] .big)) ∧
    (Fpack.mk [] .big).floatAcc
        (fun q => if q.num ≤ 1000 then .ok q else .error .rangeError)
        (fun fs => .ok (List.replicate (4 * fs.length) 0)) [(1 : ℚ)] =
      (.ok [0, 0, 0, 0], Fpack.mk ([] ++ [[0, 0, 0, 0]]) .big) :=
  ⟨claim10_coercion.1 false .w8 (mkRat 59 10) (Fpack.mk [] .big) (by decide),
   claim10_coercion.2.1 (mkRat 59 10) (by norm_num),
   claim10_coercion.2.2.1 (-(mkRat 59 10)) (by norm_num),
   claim10_coercion.2.2.2.2.2.1
     (fun q => if q.num ≤ 1000 then .ok q else .error .rangeError)
     (fun fs => .ok (List.replicate (4 * fs.length) 0)) [(2000 : ℚ)]
     (Fpack.mk [] .big) .rangeError (by decide) (fun _ => .error .rangeError),
   claim10_coercion.2.2.2.2.2.2.2
     (fun q => if q.num ≤ 1000 then .ok q else .error .rangeError)
     (fun fs => .ok (List.replicate (4 * fs.length) 0)) [(1 : ℚ)] [(1 : ℚ)]
     (List.replicate (4 * ([(1 : ℚ)].length)) 0) (Fpack.mk [] .big) (by decide) rfl⟩

/-- A string that case-folds to one of the accepted names is none of the
single-character codes. -/
theorem ne_chars_of_lower_name (v t : String) (hlow : pyLower v = t)
    (ht : t ∈ ["native", "nativenoalign", "little", "big", "net", "network"]) :
    v ≠ "@" ∧ v ≠ "=" ∧ v ≠ "<" ∧ v ≠ ">" ∧ v ≠ "!" := by
  refine ⟨?_, ?_, ?_, ?_, ?_⟩
  all_goals
    intro hv
    rw [hv] at hlow
    fin_cases ht <;> revert hlow <;> decide

/-- Evaluation of the `Endian` setter on a string that is none of the
single-character codes, reduced to its case-folded form. -/
theorem parseEndianStr_of_lower (v t : String) (hlow : pyLower v = t)
    (h1 : v ≠ "@") (h2 : v ≠ "=") (h3 : v ≠ "<") (h4 : v ≠ ">") (h5 : v ≠ "!") :
    parseEndianStr v =
      (if t = "native" then .ok .native
       else if t = "nativenoalign" then .ok .nativeNoAlign
       else if t = "little" then .ok .little
       else if t = "big" then .ok .big
       else if t = "net" then .ok .network
       else if t = "network" then .ok .network
       else .error (endianErrMsg v)) := by
  unfold parseEndianStr
  rw [if_neg h1, if_neg h2, if_neg h3, if_neg h4, if_neg h5, hlow]

/-- C9 (confirmed): for every string supplied as a byte-order mode, if it is
one of the five single-character codes or one of the accepted names compared
case-insensitively it selects the corresponding enumeration value, and any
other string fails with the `ValueError` whose message names the offending
value and lists all accepted forms. -/
theorem claim9_endian_parse (v : String) :
    (∀ m : Endianness, endianAccepts m v = true → parseEndianStr v = .ok m) ∧
    ((Endianness.listAll.all fun m => ! endianAccepts m v) = true →
      parseEndianStr v = .error (endianErrMsg v)) := by
  constructor
  · intro m hm
    unfold endianAccepts at hm
    cases hco : (v == m.value) with
    | true =>
      have hv : v = m.value := eq_of_beq hco
      cases m <;> subst hv <;> decide
    | false =>
      rw [hco, Bool.false_or] at hm
      have hn := hm
      cases m with
      | native =>
        have hlow : pyLower v = "native" := by
          simpa [endianNames, List.contains] using hn
        obtain ⟨c1, c2, c3, c4, c5⟩ := ne_chars_of_lower_name v "native" hlow (by decide)
        rw [parseEndianStr_of_lower v "native" hlow c1 c2 c3 c4 c5, if_pos rfl]
      | nativeNoAlign =>
        have hlow : pyLower v = "nativenoalign" := by
          simpa [endianNames, List.contains] using hn
        obtain ⟨c1, c2, c3, c4, c5⟩ :=
          ne_chars_of_lower_name v "nativenoalign" hlow (by decide)
        rw [parseEndianStr_of_lower v "nativenoalign" hlow c1 c2 c3 c4 c5,
          if_neg (by decide), if_pos rfl]
      | little =>
        have hlow : pyLower v = "little" := by
          simpa [endianNames, List.contains] using hn
        obtain ⟨c1, c2, c3, c4, c5⟩ := ne_chars_of_lower_name v "little" hlow (by decide)
        rw [parseEndianStr_of_lower v "little" hlow c1 c2 c3 c4 c5,
          if_neg (by decide), if_neg (by decide), if_pos rfl]
      | big =>
        have hlow : pyLower v = "big" := by
          simpa [endianNames, List.contains] using hn
        obtain ⟨c1, c2, c3, c4, c5⟩ := ne_chars_of_lower_name v "big" hlow (by decide)
        rw [parseEndianStr_of_lower v "big" hlow c1 c2 c3 c4 c5,
          if_neg (by decide), if_neg (by decide), if_neg (by decide), if_pos rfl]
      | network =>
        have hlow2 : pyLower v = "net" ∨ pyLower v = "network" := by
          simpa [endianNames, List.contains] using hn
        rcases hlow2 with hlow | hlow
        · obtain ⟨c1, c2, c3, c4, c5⟩ := ne_chars_of_lower_name v "net" hlow (by decide)
          rw [parseEndianStr_of_lower v "net" hlow c1 c2 c3 c4 c5,
            if_neg (by decide), if_neg (by decide), if_neg (by decide),
            if_neg (by decide), if_pos rfl]
        · obtain ⟨c1, c2, c3, c4, c5⟩ := ne_chars_of_lower_name v "network" hlow (by decide)
          rw [parseEndianStr_of_lower v "network" hlow c1 c2 c3 c4 c5,
            if_neg (by decide), if_neg (by decide), if_neg (by decide),
            if_neg (by decide), if_neg (by decide), if_pos rfl]
  · intro hall
    have hacc : ∀ m, m ∈ Endianness.listAll → (! endianAccepts m v) = true :=
      List.all_eq_true.mp hall
    have hf : ∀ m : Endianness, endianAccepts m v = false := by
      intro m
      have := hacc m (by cases m <;> simp [Endianness.listAll])
      simpa using this
    have hchar : ∀ m : Endianness, (v == m.value) = false := by
      intro m
      have := hf m
      unfold endianAccepts at this
      exact (Bool.or_eq_false_iff.mp this).1
    have hname : ∀ m : Endianness, ((endianNames m).contains (pyLower v)) = false := by
      intro m
      have := hf m
      unfold endianAccepts at this
      exact (Bool.or_eq_false_iff.mp this).2
    have hv1 : ¬ v = "@" := by
      intro hv
      have := hchar .native
      rw [hv] at this
      exact absurd this (by decide)
    have hv2 : ¬ v = "=" := by
      intro hv
      have := hchar .nativeNoAlign
      rw [hv] at this
      exact absurd this (by decide)
    have hv3 : ¬ v = "<" := by
      intro hv
      have := hchar .little
      rw [hv] at this
      exact absurd this (by decide)
    have hv4 : ¬ v = ">" := by
      intro hv
      have := hchar .big
      rw [hv] at this
      exact absurd this (by decide)
    have hv5 : ¬ v = "!" := by
      intro hv
      have := hchar .network
      rw [hv] at this
      exact absurd this (by decide)
    have hl1 : ¬ pyLower v = "native" := by
      intro heq
      have := hname .native
      rw [heq] at this
      exact absurd this (by decide)
    have hl2 : ¬ pyLower v = "nativenoalign" := by
      intro heq
      have := hname .nativeNoAlign
      rw [heq] at this
      exact absurd this (by decide)
    have hl3 : ¬ pyLower v = "little" := by
      intro heq
      have := hname .little
      rw [heq] at this
      exact absurd this (by decide)
    have hl4 : ¬ pyLower v = "big" := by
      intro heq
      have := hname .big
      rw [heq] at this
      exact absurd this (by decide)
    have hl5 : ¬ pyLower v = "net" := by
      intro heq
      have := hname .network
      rw [heq] at this
      exact absurd this (by decide)
    have hl6 : ¬ pyLower v = "network" := by
      intro heq
      have := hname .network
      rw [heq] at this
      exact absurd this (by decide)
    unfold parseEndianStr
    rw [if_neg hv1, if_neg hv2, if_neg hv3, if_neg hv4, if_neg hv5, if_neg hl1,
      if_neg hl2, if_neg hl3, if_neg hl4, if_neg hl5, if_neg hl6]

/-- C9 witness: the mixed-case name LiTTle selects the little mode, and the
unrecognized string taco fails with the message naming it and the accepted
forms. -/
theorem claim9_witness :
    parseEndianStr "LiTTle" = .ok .little ∧
    parseEndianStr "taco" = .error (endianErrMsg "taco") :=
  ⟨(claim9_endian_parse "LiTTle").1 .little (by decide),
   (claim9_endian_parse "taco").2 (by decide)⟩

/-- The little-endian decomposition has one byte per requested position. -/
theorem length_leBytes (w v : Nat) : (leBytes w v).length = w := by
  induction w generalizing v with
  | zero => rfl
  | succ k ih =>
    show (v % 256 :: leBytes k (v / 256)).length = k + 1
    rw [List.length_cons, ih]

/-- Recomposition of the little-endian decomposition. -/
theorem leVal_leBytes (w v : Nat) (h : v < 256 ^ w) : leVal (leBytes w v) = v := by
  induction w generalizing v with
  | zero =>
    have hv : v = 0 := by
      have h1 : (256 : Nat) ^ 0 = 1 := pow_zero 256
      omega
    rw [hv]
    rfl
  | succ k ih =>
    show v % 256 + 256 * leVal (leBytes k (v / 256)) = v
    rw [ih (v / 256) (by
      have h2 : (256 : Nat) ^ (k + 1) = 256 ^ k * 256 := pow_succ 256 k
      omega)]
    omega

/-- An encoded unsigned field has exactly its width in bytes. -/
theorem encodeU_length (bigOrder : Bool) (w v : Nat) : (encodeU bigOrder w v).length = w := by
  unfold encodeU
  split_ifs
  · rw [List.length_reverse, length_leBytes]
  · rw [length_leBytes]

/-- Unsigned decode inverts unsigned encode in either byte order. -/
theorem decodeU_encodeU (bigOrder : Bool) (w v : Nat) (h : v < 256 ^ w) :
    decodeU bigOrder (encodeU bigOrder w v) = v := by
  unfold encodeU decodeU
  split_ifs
  · rw [List.reverse_reverse]
    exact leVal_leBytes w v h
  · exact leVal_leBytes w v h

/-- The byte capacity of a width equals its bit capacity. -/
theorem pow256_bytes (w : Width) : (256 : Nat) ^ w.bytes = 2 ^ w.bits := by
  unfold Width.bits
  rw [show (256 : Nat) = 2 ^ 8 from rfl, ← pow_mul]

/-- Every field width has at least one bit. -/
theorem bits_pos (w : Width) : 1 ≤ w.bits := by
  cases w <;> decide

/-- Evaluation of the signed field decoder. -/
theorem decInt_true_eval (bigOrder : Bool) (w : Width) (bs : List Nat) :
    decInt bigOrder true w bs =
      (if decodeU bigOrder bs < 2 ^ (w.bits - 1) then ((decodeU bigOrder bs : Nat) : Int)
       else ((decodeU bigOrder bs : Nat) : Int) - (2 : Int) ^ w.bits) := rfl

/-- Evaluation of the unsigned field decoder. -/
theorem decInt_false_eval (bigOrder : Bool) (w : Width) (bs : List Nat) :
    decInt bigOrder false w bs = ((decodeU bigOrder bs : Nat) : Int) := rfl

/-- Evaluation of the field encoder. -/
theorem encInt_eval (bigOrder : Bool) (w : Width) (v : Int) :
    encInt bigOrder w v = encodeU bigOrder w.bytes ((v % ((2 : Int) ^ w.bits)).toNat) := rfl

/-- An encoded integer field has exactly its width in bytes. -/
theorem encInt_length (bigOrder : Bool) (w : Width) (v : Int) :
    (encInt bigOrder w v).length = w.bytes := by
  rw [encInt_eval, encodeU_length]

/-- Round trip of one integer field: decoding the encoding of any value in
the range of its width and signedness restores the value, in either byte
order. -/
theorem decInt_encInt (bigOrder sgn : Bool) (w : Width) (v : Int)
    (h : intInRange sgn w v = true) : decInt bigOrder sgn w (encInt bigOrder w v) = v := by
  have hNH : (2 : Nat) ^ w.bits = 2 * 2 ^ (w.bits - 1) := by
    have hb := bits_pos w
    obtain ⟨k, hk⟩ : ∃ k, w.bits = k + 1 := ⟨w.bits - 1, by omega⟩
    rw [hk, Nat.add_sub_cancel, pow_succ]
    ring
  have hcastN : ((2 : Int) ^ w.bits) = ((2 ^ w.bits : Nat) : Int) := by push_cast; rfl
  have hcastH : ((2 : Int) ^ (w.bits - 1)) = ((2 ^ (w.bits - 1) : Nat) : Int) := by
    push_cast; rfl
  cases sgn with
  | false =>
    have h2 : (0 : Int) ≤ v ∧ v < (2 : Int) ^ w.bits := by
      simpa [intInRange] using h
    have h22 := h2.2
    rw [hcastN] at h22
    have hmod : v % ((2 : Int) ^ w.bits) = v := Int.emod_eq_of_lt h2.1 h2.2
    rw [encInt_eval, hmod, decInt_false_eval,
      decodeU_encodeU bigOrder w.bytes v.toNat (by rw [pow256_bytes]; omega)]
    omega
  | true =>
    have h2 : -((2 : Int) ^ (w.bits - 1)) ≤ v ∧ v < (2 : Int) ^ (w.bits - 1) := by
      simpa [intInRange] using h
    have h21 := h2.1
    have h22 := h2.2
    rw [hcastH] at h21 h22
    by_cases hv : 0 ≤ v
    · have hvN : v < ((2 ^ w.bits : Nat) : Int) := by omega
      have hmod : v % ((2 : Int) ^ w.bits) = v :=
        Int.emod_eq_of_lt hv (by rw [hcastN]; exact hvN)
      rw [encInt_eval, hmod, decInt_true_eval,
        decodeU_encodeU bigOrder w.bytes v.toNat (by rw [pow256_bytes]; omega)]
      rw [if_pos (by omega)]
      omega
    · have hlt0 : v < 0 := not_le.mp hv
      have hmod : v % ((2 : Int) ^ w.bits) = v + (2 : Int) ^ w.bits := by
        have hstep : v % ((2 : Int) ^ w.bits) = (v + (2 : Int) ^ w.bits) % ((2 : Int) ^ w.bits) := by
          have := Int.add_mul_emod_self_left v ((2 : Int) ^ w.bits) 1
          rw [mul_one] at this
          exact this.symm
        rw [hstep]
        exact Int.emod_eq_of_lt (by rw [hcastN]; omega) (by rw [hcastN]; omega)
      have hmodcast : v % ((2 : Int) ^ w.bits) = v + ((2 ^ w.bits : Nat) : Int) := by
        rw [hmod, hcastN]
      rw [encInt_eval, hmodcast, decInt_true_eval,
        decodeU_encodeU bigOrder w.bytes (v + ((2 ^ w.bits : Nat) : Int)).toNat
          (by rw [pow256_bytes]; omega)]
      rw [if_neg (by omega)]
      rw [hcastN]
      omega

/-- Splitting the concatenation of equal-length chunks restores the chunks. -/
theorem chunksOf_flatten (k : Nat) (ls : List (List Nat))
    (h : ∀ l ∈ ls, l.length = k) : chunksOf k ls.length ls.flatten = ls := by
  induction ls with
  | nil => rfl
  | cons l rest ih =>
    show (l ++ rest.flatten).take k :: chunksOf k rest.length ((l ++ rest.flatten).drop k) =
      l :: rest
    have hl : l.length = k := h l (List.mem_cons_self l rest)
    rw [List.take_left' hl, List.drop_left' hl,
      ih (fun x hx => h x (List.mem_cons_of_mem l hx))]

/-- Length of the byte stream of a packed integer sequence. -/
theorem flatten_enc_length (bigOrder : Bool) (w : Width) (vs : List Int) :
    ((vs.map (encInt bigOrder w)).flatten).length = w.bytes * vs.length := by
  induction vs with
  | nil => rfl
  | cons a rest ih =>
    show ((encInt bigOrder w a) ++ (rest.map (encInt bigOrder w)).flatten).length =
      w.bytes * (rest.length + 1)
    rw [List.length_append, encInt_length, ih]
    ring

/-- C8 (confirmed): for every field width, signedness and byte-order mode,
writing any sequence of representable values with the writer accessor and
reading the same number of values back with the reader accessor in the same
mode restores exactly the original values — the scalar for a one-element
sequence, the ordered tuple otherwise. -/
theorem claim8_roundtrip (m : Endianness) (sgn : Bool) (w : Width) (vs : List Int)
    (h : ∀ v ∈ vs, intInRange sgn w v = true) :
    ((Fpack.mk [] m).intAcc sgn w (vs.map (fun x => ((x : Int) : ℚ)))).1 =
      .ok ((vs.map (encInt m.isBig w)).flatten) ∧
    ((Funpack.mk (((Fpack.mk [] m).intAcc sgn w
          (vs.map (fun x => ((x : Int) : ℚ)))).2.Data) 0 m).shortInt sgn w vs.length).1 =
      .ok (if vs.length = 1 then .scalar vs.headI else .tuple vs) := by
  have hmap : (vs.map (fun x => ((x : Int) : ℚ))).map pyInt = vs := by
    rw [List.map_map]
    have hco : (pyInt ∘ fun x => ((x : Int) : ℚ)) = id := by
      funext x
      show pyInt ((x : Int) : ℚ) = x
      exact pyInt_intCast x
    rw [hco, List.map_id]
  have hall : ((vs.map fun x => ((x : Int) : ℚ)).map pyInt).all (intInRange sgn w) = true := by
    rw [hmap, List.all_eq_true]
    intro x hx
    exact h x hx
  have hw := intAcc_ok_of_all (Fpack.mk [] m) sgn w (vs.map fun x => ((x : Int) : ℚ)) hall
  rw [hmap] at hw
  have hdata : (((Fpack.mk [] m).intAcc sgn w (vs.map fun x => ((x : Int) : ℚ))).2).Data =
      (vs.map (encInt m.isBig w)).flatten := by
    rw [hw]
    unfold Fpack.Data
    simp only [List.nil_append, List.flatten_cons, List.flatten_nil, List.append_nil]
  refine ⟨by rw [hw], ?_⟩
  rw [hdata]
  have hlen : ((vs.map (encInt m.isBig w)).flatten).length = w.bytes * vs.length :=
    flatten_enc_length m.isBig w vs
  have hrb := @readBytes_ok_of_nonneg
    (Funpack.mk ((vs.map (encInt m.isBig w)).flatten) 0 m) (w.bytes * vs.length)
    (le_refl 0) (by
      show (0 : Int) + ((w.bytes * vs.length : Nat) : Int) ≤ _
      rw [hlen]
      omega)
  have hbytes : (((Funpack.mk ((vs.map (encInt m.isBig w)).flatten) 0 m).src.drop
      ((0 : Int).toNat)).take (w.bytes * vs.length)) = (vs.map (encInt m.isBig w)).flatten := by
    show (((vs.map (encInt m.isBig w)).flatten).drop 0).take (w.bytes * vs.length) = _
    rw [List.drop_zero, ← hlen, List.take_length]
  rw [hbytes] at hrb
  have hchunks : chunksOf w.bytes vs.length ((vs.map (encInt m.isBig w)).flatten) =
      vs.map (encInt m.isBig w) := by
    have hcf := chunksOf_flatten w.bytes (vs.map (encInt m.isBig w)) (by
      intro l hl
      obtain ⟨x, hx, hxl⟩ := List.mem_map.mp hl
      rw [← hxl]
      exact encInt_length m.isBig w x)
    rw [List.length_map] at hcf
    exact hcf
  have hdecmap : (vs.map (encInt m.isBig w)).map (decInt m.isBig sgn w) = vs := by
    rw [List.map_map]
    have := List.map_congr_left (fun x hx =>
      (by
        show (decInt m.isBig sgn w ∘ encInt m.isBig w) x = id x
        exact decInt_encInt m.isBig sgn w x (h x hx)))
    rw [this, List.map_id]
  have hur : (Funpack.mk ((vs.map (encInt m.isBig w)).flatten) 0 m).unpackRepeat
      w.bytes (decInt m.isBig sgn w) vs.length =
      (.ok vs, Funpack.mk ((vs.map (encInt m.isBig w)).flatten)
        ((0 : Int) + ((w.bytes * vs.length : Nat) : Int)) m) := by
    unfold Funpack.unpackRepeat
    rw [hrb]
    simp only [bindStep]
    rw [hchunks, hdecmap]
  unfold Funpack.shortInt Funpack.short
  by_cases h1 : vs.length = 1
  · rw [if_pos h1]
    unfold Funpack.scalarRead
    rw [h1] at hur
    rw [hur]
    simp only [bindStep]
    rw [if_pos h1]
  · rw [if_neg h1]
    rw [hur]
    simp only [bindStep]
    rw [if_neg h1]

/-- C8 witness: a big-endian signed 16-bit pair round trip at the values
-2 and 300. -/
theorem claim8_witness :
    (((Fpack.mk [] .big).intAcc true .w16 ([(-2 : Int), 300].map
        (fun x => ((x : Int) : ℚ)))).1 =
      .ok (([(-2 : Int), 300].map (encInt Endianness.big.isBig .w16)).flatten)) ∧
    ((Funpack.mk (((Fpack.mk [] .big).intAcc true .w16 ([(-2 : Int), 300].map
          (fun x => ((x : Int) : ℚ)))).2.Data) 0 .big).shortInt true .w16
        ([(-2 : Int), 300].length)).1 =
      .ok (if [(-2 : Int), 300].length = 1 then .scalar ([(-2 : Int), 300].headI)
           else .tuple [(-2 : Int), 300]) :=
  claim8_roundtrip .big true .w16 [(-2 : Int), 300] (by decide)

/-- A byte list splits into exactly the requested number of chunks. -/
theorem chunksOf_length (k : Nat) : ∀ (t : Nat) (bs : List Nat),
    (chunksOf k t bs).length = t := by
  intro t
  induction t with
  | zero => intro bs; rfl
  | succ n ih =>
    intro bs
    show (bs.take k :: chunksOf k n (bs.drop k)).length = n + 1
    rw [List.length_cons, ih]

/-- A successful read of `a + b` bytes from a nonnegative offset is the
read of the first `a` bytes followed by the read of the next `b` bytes. -/
theorem readBytes_split (f : Funpack) (h0 : 0 ≤ f.offset) (a b : Nat)
    (bs : List Nat) (f1 : Funpack) (h : f.readBytes (a + b) = (.ok bs, f1)) :
    f.readBytes a = (.ok (bs.take a), Funpack.mk f.src (f.offset + (a : Nat)) f.endian) ∧
    (Funpack.mk f.src (f.offset + (a : Nat)) f.endian).readBytes b = (.ok (bs.drop a), f1) := by
  have hle := readBytes_ok_le h0 h
  have hst := readBytes_ok_state h
  have hbs : bs = (f.src.drop f.offset.toNat).take (a + b) := by
    have hv := readBytes_ok_of_nonneg h0 hle
    rw [h] at hv
    exact Except.ok.inj (Prod.ext_iff.mp hv).1
  have hcast : ((a + b : Nat) : Int) = ((a : Nat) : Int) + ((b : Nat) : Int) := by
    push_cast
    ring
  constructor
  · have hle1 : f.offset + ((a : Nat) : Int) ≤ (f.src.length : Int) := by
      rw [hcast] at hle
      have hbnn : (0 : Int) ≤ ((b : Nat) : Int) := Int.natCast_nonneg _
      omega
    have h1 := readBytes_ok_of_nonneg h0 hle1
    have heq : (f.src.drop f.offset.toNat).take a = bs.take a := by
      rw [hbs, List.take_take, min_eq_left (Nat.le_add_right a b)]
    rw [heq] at h1
    exact h1
  · have hoff2 : (0 : Int) ≤ (Funpack.mk f.src (f.offset + (a : Nat)) f.endian).offset := by
      show (0 : Int) ≤ f.offset + ((a : Nat) : Int)
      have : (0 : Int) ≤ ((a : Nat) : Int) := Int.natCast_nonneg _
      omega
    have hle2 : (Funpack.mk f.src (f.offset + (a : Nat)) f.endian).offset + ((b : Nat) : Int) ≤
        ((Funpack.mk f.src (f.offset + (a : Nat)) f.endian).src.length : Int) := by
      show f.offset + ((a : Nat) : Int) + ((b : Nat) : Int) ≤ (f.src.length : Int)
      rw [hcast] at hle
      omega
    have h2 := readBytes_ok_of_nonneg hoff2 hle2
    have htoNat : (f.offset + ((a : Nat) : Int)).toNat = f.offset.toNat + a := by omega
    have hslice : (((Funpack.mk f.src (f.offset + (a : Nat)) f.endian).src.drop
        ((Funpack.mk f.src (f.offset + (a : Nat)) f.endian).offset.toNat)).take b) =
        bs.drop a := by
      show ((f.src.drop ((f.offset + ((a : Nat) : Int)).toNat)).take b) = bs.drop a
      rw [htoNat, hbs, List.drop_take]
      rw [Nat.add_sub_cancel_left]
      rw [List.drop_drop]
    rw [hslice] at h2
    have hstate : (Funpack.mk f.src
        ((Funpack.mk f.src (f.offset + (a : Nat)) f.endian).offset + ((b : Nat) : Int))
        f.endian) = f1 := by
      rw [hst]
      show Funpack.mk f.src (f.offset + ((a : Nat) : Int) + ((b : Nat) : Int)) f.endian =
        Funpack.mk f.src (f.offset + ((a + b : Nat) : Int)) f.endian
      rw [hcast, add_assoc]
    rw [hstate] at h2
    exact h2

/-- A successful multi-value `Unpack` yields the same values and final
state as that many successive single-value reads (proved by induction on
the count, splitting the combined byte span). -/
theorem unpackRepeat_to_seqReads {α : Type} [Inhabited α] (wb : Nat)
    (dec : List Nat → α) : ∀ (times : Nat) (f : Funpack), 0 ≤ f.offset →
    ∀ (vs : List α) (f1 : Funpack), f.unpackRepeat wb dec times = (.ok vs, f1) →
      Funpack.seqReads wb dec times f = (.ok vs, f1) := by
  intro times
  induction times with
  | zero =>
    intro f h0 vs f1 h
    unfold Funpack.unpackRepeat at h
    obtain ⟨bs, sv, hrb, hg⟩ := bindStep_ok_elim h
    have hvs : vs = (chunksOf wb 0 bs).map dec := (Except.ok.inj (Prod.ext_iff.mp hg).1).symm
    have hsv : sv = f1 := (Prod.ext_iff.mp hg).2
    rw [hsv] at hrb
    have hst := readBytes_ok_state hrb
    have hf1 : f1 = f := by
      rw [hst]
      rcases f with ⟨s, o, e⟩
      show Funpack.mk s (o + ((wb * 0 : Nat) : Int)) e = Funpack.mk s o e
      rw [Nat.mul_zero]
      norm_num
    rw [hvs, hf1]
    rfl
  | succ t ih =>
    intro f h0 vs f1 h
    unfold Funpack.unpackRepeat at h
    obtain ⟨bs, sv, hrb, hg⟩ := bindStep_ok_elim h
    have hvs : vs = (chunksOf wb (t + 1) bs).map dec :=
      (Except.ok.inj (Prod.ext_iff.mp hg).1).symm
    have hsv : sv = f1 := (Prod.ext_iff.mp hg).2
    rw [hsv] at hrb
    have hsz : wb * (t + 1) = wb + wb * t := by ring
    rw [hsz] at hrb
    obtain ⟨hr1, hr2⟩ := readBytes_split f h0 wb (wb * t) bs f1 hrb
    have hs1 : f.scalarRead wb dec = (.ok (dec (bs.take wb)),
        Funpack.mk f.src (f.offset + (wb : Nat)) f.endian) := by
      unfold Funpack.scalarRead Funpack.unpackRepeat
      rw [Nat.mul_one, hr1]
      simp only [bindStep]
      show (Except.ok (((chunksOf wb 1 (bs.take wb)).map dec).headI), _) = _
      have hch : chunksOf wb 1 (bs.take wb) = [bs.take wb] := by
        show (bs.take wb).take wb :: chunksOf wb 0 ((bs.take wb).drop wb) = [bs.take wb]
        rw [List.take_take, min_self]
        rfl
      rw [hch]
      rfl
    have h0b : (0 : Int) ≤ (Funpack.mk f.src (f.offset + (wb : Nat)) f.endian).offset := by
      show (0 : Int) ≤ f.offset + ((wb : Nat) : Int)
      have : (0 : Int) ≤ ((wb : Nat) : Int) := Int.natCast_nonneg _
      omega
    have hs2 : (Funpack.mk f.src (f.offset + (wb : Nat)) f.endian).unpackRepeat wb dec t =
        (.ok ((chunksOf wb t (bs.drop wb)).map dec), f1) := by
      unfold Funpack.unpackRepeat
      rw [hr2]
      rfl
    have hseq2 := ih (Funpack.mk f.src (f.offset + (wb : Nat)) f.endian) h0b
      ((chunksOf wb t (bs.drop wb)).map dec) f1 hs2
    show Funpack.seqReads wb dec (t + 1) f = (.ok vs, f1)
    unfold Funpack.seqReads
    rw [hs1]
    simp only [bindStep]
    rw [hseq2]
    simp only [bindStep]
    rw [hvs]
    rfl

/-- C6 (confirmed): `_short` returns the bare scalar for `count == 1`, and
for any other count (including 0) an ordered tuple of exactly `count`
values equal to that many successive `count=1` reads, for every field
width, decoder and byte source (from any nonnegative offset). -/
theorem claim6_scalar_sequence {α : Type} [Inhabited α] (wb : Nat)
    (dec : List Nat → α) (f : Funpack) (h0 : 0 ≤ f.offset) :
    (∀ r f1, f.short wb dec 1 = (.ok r, f1) →
      ∃ v, r = .scalar v ∧ f.scalarRead wb dec = (.ok v, f1)) ∧
    (∀ times r f1, times ≠ 1 → f.short wb dec times = (.ok r, f1) →
      ∃ vs, r = .tuple vs ∧ vs.length = times ∧
        Funpack.seqReads wb dec times f = (.ok vs, f1)) := by
  constructor
  · intro r f1 h
    unfold Funpack.short at h
    rw [if_pos rfl] at h
    obtain ⟨v, sv, hp, hg⟩ := bindStep_ok_elim h
    have hr : r = .scalar v := (Except.ok.inj (Prod.ext_iff.mp hg).1).symm
    have hsv : sv = f1 := (Prod.ext_iff.mp hg).2
    exact ⟨v, hr, by rw [← hsv]; exact hp⟩
  · intro times r f1 ht h
    unfold Funpack.short at h
    rw [if_neg ht] at h
    obtain ⟨vs, sv, hp, hg⟩ := bindStep_ok_elim h
    have hr : r = .tuple vs := (Except.ok.inj (Prod.ext_iff.mp hg).1).symm
    have hsv : sv = f1 := (Prod.ext_iff.mp hg).2
    rw [hsv] at hp
    refine ⟨vs, hr, ?_, unpackRepeat_to_seqReads wb dec times f h0 vs f1 hp⟩
    obtain ⟨_, hvs⟩ := unpackRepeat_ok_elim hp
    rw [hvs, List.length_map, chunksOf_length]

/-- C6 witness: a two-value big-endian 16-bit read over four bytes equals
the two successive scalar reads. -/
theorem claim6_witness :
    ∃ vs : List Int, (ShortRet.tuple [(258 : Int), 772] : ShortRet Int) = .tuple vs ∧
      vs.length = 2 ∧
      Funpack.seqReads 2 (decInt true false .w16) 2 (Funpack.mk [1, 2, 3, 4] 0 .big) =
        (.ok vs, Funpack.mk [1, 2, 3, 4] (0 + ((2 * 2 : Nat) : Int)) .big) :=
  (claim6_scalar_sequence 2 (decInt true false .w16) (Funpack.mk [1, 2, 3, 4] 0 .big)
    (by decide)).2 2 (.tuple [258, 772])
    (Funpack.mk [1, 2, 3, 4] (0 + ((2 * 2 : Nat) : Int)) .big) (by decide) (by decide)
